import Mathlib

/-!
Shallow embedding of the ECR image retention / cleanup logic of
`awsbot_cli` (the `cleanup-images` command in `src/awsbot_cli/commands/ecr.py`)
and of the AMI cleanup lambda (`src/awsbot_cli/lambda_functions/cleanup_amis.py`).

The embedding models the repository state seen through the AWS API as plain
records: each `list_images` entry carries the detail fields (`imageTags`,
`imagePushedAt`) that a subsequent `describe_images` call would return for its
digest, and `describe_images` is modelled as returning, for each requested
image id, the detail of that image, in request order.
-/

namespace AwsbotCli

/-- One entry of a `list_images` response, together with the detail fields the
`describe_images` API would report for it.  `imageTag` is `none` when the
`"imageTag"` key is absent from the entry (an untagged image). -/
structure EcrImage where
  imageDigest : String
  imageTag : Option String
  imageTags : List String
  imagePushedAt : Int
deriving DecidableEq, Repr

/-- One element of a `describe_images` response (`imageDetails`). -/
structure ImageDetail where
  imageDigest : String
  imageTags : List String
  imagePushedAt : Int
deriving DecidableEq, Repr

/-- One element of the `to_delete` list handed to `batch_delete_image`:
either an original untagged `list_images` entry (no `imageTag` key, hence
`none`), or a `{"imageDigest": ..., "imageTag": ...}` dict built for a stale
tagged image. -/
structure DeleteEntry where
  imageDigest : String
  imageTag : Option String
deriving DecidableEq, Repr

/-- Model of `client.describe_images` on a single image id: the response
detail for that image. -/
def describeImage (i : EcrImage) : ImageDetail :=
  ⟨i.imageDigest, i.imageTags, i.imagePushedAt⟩

/-- Python slicing `l[i : i + n]` stepped over `range(0, len(l), n)`:
the chunk loop `for i in range(0, len(l), n): batch = l[i : i + n]` used both
for the `describe_images` calls (`chunk_size = 100`) and for the
`batch_delete_image` calls (batches of 100).  Defined for every `n`; the
source only ever uses it with the positive constant 100 (Python's `range`
would reject a step of 0). -/
def pyBatchesGo (n : Nat) : Nat → List α → List (List α)
  | _, [] => []
  | 0, _ :: _ => []
  | fuel + 1, x :: xs => (x :: xs.take (n - 1)) :: pyBatchesGo n fuel (xs.drop (n - 1))

/-- The chunk loop proper; the fuel `l.length` is an upper bound on the
number of chunks, so `pyBatchesGo` never runs out (see `pyBatches_cons`). -/
def pyBatches (n : Nat) (l : List α) : List (List α) := pyBatchesGo n l.length l

/-- Python slicing `l[k:]` for an `int` index `k`, including the negative
case: `l[-m:]` is the suffix of the last `min m (length l)` elements. -/
def pySliceFrom (k : Int) (l : List α) : List α :=
  if 0 ≤ k then l.drop k.toNat else l.drop (l.length - min (-k).toNat l.length)

/-- One step of the stable descending sort: insert `x` into an already
sorted-descending list, after every element strictly newer than `x` and
before every element no newer than it.  This places `x` before elements with
an equal `imagePushedAt`, which is exactly the behaviour of Python's stable
`list.sort(key=..., reverse=True)` when `x` comes earlier in the input. -/
def insertDetail (x : ImageDetail) : List ImageDetail → List ImageDetail
  | [] => [x]
  | y :: ys =>
    if x.imagePushedAt < y.imagePushedAt then y :: insertDetail x ys
    else x :: y :: ys

/-- Model of `details.sort(key=lambda x: x["imagePushedAt"], reverse=True)`:
a stable sort, descending by `imagePushedAt`, equal keys keeping their input
order. -/
def sortDetails (l : List ImageDetail) : List ImageDetail :=
  l.foldr insertDetail []

/-- The retention decision of `cleanup_images`
(src/awsbot_cli/commands/ecr.py, lines 176-205): the `to_delete` list built
from the fetched images, the `keep` option and the `delete_untagged` option.

Mirrors the source line by line:
  * `untagged` / `tagged`: entries without / with an `"imageTag"` key;
  * untagged entries are appended first, when `delete_untagged and untagged`;
  * when `len(tagged) > keep`, details are fetched in chunks of 100, sorted
    newest first, and `details[keep:]` (Python slice, so a suffix also for a
    negative `keep`) is appended as `{"imageDigest": ..., "imageTag":
    imageTags[0]}` dicts.  `imageTags[0]` would raise `IndexError` on an
    empty tag list; the model totalises it with `List.headI` (default `""`),
    and claims about it assume a nonempty `imageTags`. -/
def cleanupToDelete (images : List EcrImage) (keep : Int)
    (delete_untagged : Bool) : List DeleteEntry :=
  let untagged := images.filter (fun i => i.imageTag.isNone)
  let tagged := images.filter (fun i => i.imageTag.isSome)
  let base : List DeleteEntry :=
    if delete_untagged && !untagged.isEmpty then
      untagged.map (fun i => ⟨i.imageDigest, i.imageTag⟩)
    else []
  let stalePart : List DeleteEntry :=
    if keep < (tagged.length : Int) then
      let details := ((pyBatches 100 tagged).map (fun b => b.map describeImage)).flatten
      let sorted := sortDetails details
      let stale := pySliceFrom keep sorted
      stale.map (fun d => ⟨d.imageDigest, some d.imageTags.headI⟩)
    else []
  base ++ stalePart

/-- Observable execution of `cleanup_images` after the decision is computed
(lines 207-222): which `batch_delete_image` calls are issued and what count
the final message reports (`none` when the command prints
`"No images need deleting."` — or found no images at all — and returns
without a count). -/
structure CleanupRun where
  deleteCalls : List (List DeleteEntry)
  reportedCount : Option Nat
deriving DecidableEq, Repr

/-- Execution model of `cleanup_images`: on an empty `to_delete` the command
returns early with no calls and no count; on `dry_run` it reports
`len(to_delete)` and issues no call; otherwise it deletes in batches of 100
and reports `len(to_delete)`. -/
def cleanupRun (images : List EcrImage) (keep : Int) (delete_untagged : Bool)
    (dry_run : Bool) : CleanupRun :=
  let td := cleanupToDelete images keep delete_untagged
  if td.isEmpty then ⟨[], none⟩
  else if dry_run then ⟨[], some td.length⟩
  else ⟨pyBatches 100 td, some td.length⟩

/-- The images of the input the decision retains: those whose digest never
occurs in `to_delete`.  The source builds no explicit `retained` list; this
is the complement the spec's `RetentionDecision` calls `retained`. -/
def retainedImages (images : List EcrImage) (keep : Int)
    (delete_untagged : Bool) : List EcrImage :=
  images.filter
    (fun a => !(cleanupToDelete images keep delete_untagged).any
      (fun e => e.imageDigest == a.imageDigest))

/-- The descending order on details used throughout: `a` at least as new as `b`. -/
def detGE (a b : ImageDetail) : Prop := b.imagePushedAt ≤ a.imagePushedAt

/-- The tagged entries of the fetched image list (`"imageTag" in img`). -/
def taggedOf (images : List EcrImage) : List EcrImage :=
  images.filter (fun i => i.imageTag.isSome)

/-- The untagged entries of the fetched image list (`"imageTag" not in img`). -/
def untaggedOf (images : List EcrImage) : List EcrImage :=
  images.filter (fun i => i.imageTag.isNone)

/-- The `stale` list of the source: `details[keep:]` of the sorted details
when `len(tagged) > keep`, and nothing otherwise (the whole stale-tagged
branch is skipped). -/
def staleOf (images : List EcrImage) (keep : Int) : List ImageDetail :=
  if keep < ((taggedOf images).length : Int) then
    pySliceFrom keep (sortDetails ((taggedOf images).map describeImage))
  else []

/-! ### AMI cleanup lambda (`cleanup_amis.py`) -/

/-- An AWS resource tag. -/
structure ResourceTag where
  key : String
  value : String
deriving DecidableEq, Repr

/-- Python's `next((t["Value"] for t in tags if t["Key"] == key), dflt)`. -/
def firstTagValue (tags : List ResourceTag) (key dflt : String) : String :=
  match tags.find? (fun t => t.key == key) with
  | some t => t.value
  | none => dflt

/-- One EC2 instance as seen by the handler's instance scan. -/
structure Ec2Instance where
  imageId : String
  instanceId : String
  tags : List ResourceTag
deriving DecidableEq, Repr

/-- One AMI returned by `describe_images` in the handler. -/
structure AmiImage where
  imageId : String
  tags : List ResourceTag
  creationDate : String
deriving DecidableEq, Repr

/-- The `ami_to_instances.get(ami_id, [])` lookup: the handler builds the
dict by appending each scanned instance under its `ImageId`, so the per-AMI
list is exactly the instances with that `ImageId`, in scan order. -/
def amiUsers (instances : List Ec2Instance) (amiId : String) : List Ec2Instance :=
  instances.filter (fun i => i.imageId == amiId)

/-- A row of the handler's cleanup table. -/
structure CleanupRow where
  amiId : String
  amiName : String
  status : String
  created : String
deriving DecidableEq, Repr

/-- A row of the handler's in-use table: one row per instance using the AMI. -/
structure InUseRow where
  amiId : String
  amiName : String
  instanceId : String
  instanceName : String
  environment : String
deriving DecidableEq, Repr

/-- Result of the `cleanup_amis.handler` AMI loop (lines 62-125), in the
error-free execution: the cleanup table, the in-use table, and the count of
AMIs identified as unused. -/
structure HandlerResult where
  cleanup : List CleanupRow
  inUse : List InUseRow
  deregisteredCount : Nat
deriving DecidableEq, Repr

/-- Model of the handler's per-AMI loop: an AMI with no connected instance is
deregistered (status `"Would Deregister"` under dry run, `"Deregistered"`
otherwise) and added to the cleanup table; an AMI with connected instances is
skipped and contributes one in-use row per instance.  The `ClientError`
branch (a failed AWS call) is outside the model. -/
def handlerRun (instances : List Ec2Instance) (amis : List AmiImage)
    (dryRun : Bool) (env : String) : HandlerResult :=
  let unused := amis.filter (fun a => (amiUsers instances a.imageId).isEmpty)
  let used := amis.filter (fun a => !(amiUsers instances a.imageId).isEmpty)
  { cleanup := unused.map (fun a =>
      ⟨a.imageId, firstTagValue a.tags "Name" "N/A",
        if dryRun then "Would Deregister" else "Deregistered", a.creationDate⟩)
    inUse := used.flatMap (fun a =>
      (amiUsers instances a.imageId).map (fun i =>
        ⟨a.imageId, firstTagValue a.tags "Name" "N/A", i.instanceId,
          firstTagValue i.tags "Name" "No Name", env⟩))
    deregisteredCount := unused.length }

end AwsbotCli

/-! ### Helper lemmas about the embedded list operations -/

namespace AwsbotCli

theorem pyBatchesGo_congr {α : Type} (n : Nat) :
    ∀ f₁ f₂ (l : List α), l.length ≤ f₁ → l.length ≤ f₂ →
      pyBatchesGo n f₁ l = pyBatchesGo n f₂ l := by
  intro f₁
  induction f₁ with
  | zero =>
    intro f₂ l h₁ _
    cases l with
    | nil => cases f₂ <;> rfl
    | cons x xs => simp at h₁
  | succ f ih =>
    intro f₂ l h₁ h₂
    cases l with
    | nil => cases f₂ <;> rfl
    | cons x xs =>
      cases f₂ with
      | zero => simp at h₂
      | succ g =>
        rw [pyBatchesGo, pyBatchesGo]
        congr 1
        have hd : (xs.drop (n - 1)).length ≤ xs.length := by
          rw [List.length_drop]; omega
        simp only [List.length_cons] at h₁ h₂
        exact ih g (xs.drop (n - 1)) (by omega) (by omega)

theorem pyBatches_nil {α : Type} (n : Nat) : pyBatches n ([] : List α) = [] := rfl

theorem pyBatches_cons {α : Type} (n : Nat) (x : α) (xs : List α) :
    pyBatches n (x :: xs)
      = (x :: xs.take (n - 1)) :: pyBatches n (xs.drop (n - 1)) := by
  show pyBatchesGo n (xs.length + 1) (x :: xs) = _
  rw [pyBatchesGo]
  congr 1
  exact pyBatchesGo_congr n xs.length (xs.drop (n - 1)).length (xs.drop (n - 1))
    (by rw [List.length_drop]; omega) le_rfl

theorem pyBatches_flatten {α : Type} {n : Nat} :
    ∀ l : List α, (pyBatches n l).flatten = l := by
  have go : ∀ fuel (l : List α), l.length ≤ fuel →
      (pyBatchesGo n fuel l).flatten = l := by
    intro fuel
    induction fuel with
    | zero =>
      intro l hl
      cases l with
      | nil => rfl
      | cons x xs => simp at hl
    | succ f ih =>
      intro l hl
      cases l with
      | nil => rfl
      | cons x xs =>
        rw [pyBatchesGo, List.flatten_cons,
          ih _ (by rw [List.length_drop]; simp only [List.length_cons] at hl; omega),
          List.cons_append, List.take_append_drop]
  exact fun l => go l.length l le_rfl

theorem pyBatches_length_le {α : Type} {n : Nat} (hn : 0 < n) :
    ∀ l : List α, ∀ c ∈ pyBatches n l, c.length ≤ n := by
  have go : ∀ fuel (l : List α), ∀ c ∈ pyBatchesGo n fuel l, c.length ≤ n := by
    intro fuel
    induction fuel with
    | zero =>
      intro l c hc
      cases l <;> simp [pyBatchesGo] at hc
    | succ f ih =>
      intro l c hc
      cases l with
      | nil => simp [pyBatchesGo] at hc
      | cons x xs =>
        rw [pyBatchesGo, List.mem_cons] at hc
        rcases hc with hc | hc
        · subst hc
          simp only [List.length_cons]
          have := List.length_take_le (n - 1) xs
          omega
        · exact ih _ c hc
  exact fun l => go l.length l

end AwsbotCli
namespace AwsbotCli

theorem insertDetail_perm (x : ImageDetail) (s : List ImageDetail) :
    List.Perm (insertDetail x s) (x :: s) := by
  induction s with
  | nil => exact List.Perm.refl [x]
  | cons y ys ih =>
    rw [insertDetail]
    by_cases h : x.imagePushedAt < y.imagePushedAt
    · rw [if_pos h]
      exact (ih.cons y).trans (List.Perm.swap x y ys)
    · rw [if_neg h]

theorem sortDetails_perm (l : List ImageDetail) :
    List.Perm (sortDetails l) l := by
  induction l with
  | nil => exact List.Perm.refl []
  | cons x xs ih =>
    exact (insertDetail_perm x (sortDetails xs)).trans (ih.cons x)

theorem insertDetail_pairwise {x : ImageDetail} {s : List ImageDetail}
    (hs : s.Pairwise detGE) : (insertDetail x s).Pairwise detGE := by
  induction s with
  | nil => simp [insertDetail, detGE]
  | cons y ys ih =>
    rw [List.pairwise_cons] at hs
    obtain ⟨hy, hys⟩ := hs
    rw [insertDetail]
    by_cases h : x.imagePushedAt < y.imagePushedAt
    · rw [if_pos h, List.pairwise_cons]
      refine ⟨fun z hz => ?_, ih hys⟩
      rcases List.mem_cons.mp ((insertDetail_perm x ys).mem_iff.mp hz) with rfl | hz'
      · exact le_of_lt h
      · exact hy z hz'
    · rw [if_neg h, List.pairwise_cons]
      refine ⟨fun z hz => ?_, List.pairwise_cons.mpr ⟨hy, hys⟩⟩
      rcases List.mem_cons.mp hz with rfl | hz'
      · exact le_of_not_lt h
      · exact le_trans (hy z hz') (le_of_not_lt h)

theorem sortDetails_pairwise (l : List ImageDetail) :
    (sortDetails l).Pairwise detGE := by
  induction l with
  | nil => simp [sortDetails]
  | cons x xs ih => exact insertDetail_pairwise ih

theorem insertDetail_filter_pushed (x : ImageDetail) (s : List ImageDetail) (t : Int) :
    (insertDetail x s).filter (fun d => d.imagePushedAt == t)
      = (x :: s).filter (fun d => d.imagePushedAt == t) := by
  induction s with
  | nil => simp [insertDetail]
  | cons y ys ih =>
    rw [insertDetail]
    by_cases h : x.imagePushedAt < y.imagePushedAt
    · rw [if_pos h]
      by_cases hx : x.imagePushedAt = t
      · have hy : ¬ (y.imagePushedAt = t) := by omega
        simp [List.filter_cons, hx, hy] at ih ⊢
        simpa [hx] using ih
      · by_cases hy : y.imagePushedAt = t
        · simp [List.filter_cons, hx, hy] at ih ⊢
          exact ih
        · simp [List.filter_cons, hx, hy] at ih ⊢
          exact ih
    · rw [if_neg h]

theorem sortDetails_filter_pushed (l : List ImageDetail) (t : Int) :
    (sortDetails l).filter (fun d => d.imagePushedAt == t)
      = l.filter (fun d => d.imagePushedAt == t) := by
  induction l with
  | nil => rfl
  | cons x xs ih =>
    have h1 : sortDetails (x :: xs) = insertDetail x (sortDetails xs) := rfl
    rw [h1, insertDetail_filter_pushed, List.filter_cons, List.filter_cons, ih]

theorem pySliceFrom_eq_drop (k : Int) (l : List α) :
    ∃ m, pySliceFrom k l = l.drop m := by
  unfold pySliceFrom
  split
  · exact ⟨k.toNat, rfl⟩
  · exact ⟨l.length - min (-k).toNat l.length, rfl⟩

theorem pySliceFrom_of_nonneg {k : Int} (hk : 0 ≤ k) (l : List α) :
    pySliceFrom k l = l.drop k.toNat := if_pos hk

theorem batched_describe {n : Nat} (l : List EcrImage) :
    ((pyBatches n l).map (fun b => b.map describeImage)).flatten
      = l.map describeImage := by
  rw [← List.map_flatten, pyBatches_flatten]

end AwsbotCli

/-! ### Decomposition of the decision and digest bookkeeping -/

namespace AwsbotCli

/-- Unfolding of the decision: the untagged block followed by the stale
block, with the chunked `describe_images` fetch collapsed to a plain map. -/
theorem cleanupToDelete_eq (images : List EcrImage) (keep : Int) (du : Bool) :
    cleanupToDelete images keep du =
      (if du && !(untaggedOf images).isEmpty then
        (untaggedOf images).map (fun i => (⟨i.imageDigest, i.imageTag⟩ : DeleteEntry))
      else [])
      ++ (staleOf images keep).map
          (fun d => (⟨d.imageDigest, some d.imageTags.headI⟩ : DeleteEntry)) := by
  simp only [cleanupToDelete, staleOf, taggedOf, untaggedOf, batched_describe]
  by_cases h : keep < ((images.filter (fun i => i.imageTag.isSome)).length : Int)
  · simp [h]
  · simp [h]

end AwsbotCli

namespace AwsbotCli

theorem map_filter_comm (f : α → β) (p : β → Bool) (l : List α) :
    (l.filter (fun a => p (f a))).map f = (l.map f).filter p := by
  induction l with
  | nil => rfl
  | cons x xs ih =>
    by_cases h : p (f x) <;> simp [List.filter_cons, h, ih]

theorem digest_injOn {images : List EcrImage}
    (hn : (images.map EcrImage.imageDigest).Nodup) :
    ∀ a ∈ images, ∀ b ∈ images, a.imageDigest = b.imageDigest → a = b :=
  List.inj_on_of_nodup_map hn

theorem taggedOf_digests_sublist (images : List EcrImage) :
    ((taggedOf images).map EcrImage.imageDigest).Sublist
      (images.map EcrImage.imageDigest) :=
  (List.filter_sublist images).map _

theorem untaggedOf_digests_sublist (images : List EcrImage) :
    ((untaggedOf images).map EcrImage.imageDigest).Sublist
      (images.map EcrImage.imageDigest) :=
  (List.filter_sublist images).map _

theorem sortedDigests_perm (images : List EcrImage) :
    List.Perm
      ((sortDetails ((taggedOf images).map describeImage)).map ImageDetail.imageDigest)
      ((taggedOf images).map EcrImage.imageDigest) := by
  have h := (sortDetails_perm ((taggedOf images).map describeImage)).map
    ImageDetail.imageDigest
  rw [List.map_map] at h
  exact h

theorem staleOf_digests_sublist (images : List EcrImage) (keep : Int) :
    ((staleOf images keep).map ImageDetail.imageDigest).Sublist
      ((sortDetails ((taggedOf images).map describeImage)).map ImageDetail.imageDigest) := by
  unfold staleOf
  split
  · obtain ⟨m, hm⟩ := pySliceFrom_eq_drop keep
      (sortDetails ((taggedOf images).map describeImage))
    rw [hm]
    exact (List.drop_sublist m _).map _
  · simp

theorem staleOf_digest_mem {images : List EcrImage} {keep : Int} {x : String}
    (h : x ∈ (staleOf images keep).map ImageDetail.imageDigest) :
    x ∈ (taggedOf images).map EcrImage.imageDigest :=
  (sortedDigests_perm images).mem_iff.mp ((staleOf_digests_sublist images keep).subset h)

theorem toDelete_digests_eq (images : List EcrImage) (keep : Int) (du : Bool) :
    (cleanupToDelete images keep du).map DeleteEntry.imageDigest =
      (if du && !(untaggedOf images).isEmpty then
        (untaggedOf images).map EcrImage.imageDigest
      else [])
      ++ (staleOf images keep).map ImageDetail.imageDigest := by
  rw [cleanupToDelete_eq, List.map_append]
  congr 1
  · split <;> simp [List.map_map]
  · simp [List.map_map]

theorem mem_untaggedOf {images : List EcrImage} {a : EcrImage} :
    a ∈ untaggedOf images ↔ a ∈ images ∧ a.imageTag = none := by
  simp [untaggedOf, List.mem_filter, Option.isNone_iff_eq_none]

theorem mem_taggedOf {images : List EcrImage} {a : EcrImage} :
    a ∈ taggedOf images ↔ a ∈ images ∧ a.imageTag.isSome = true := by
  simp [taggedOf, List.mem_filter]

theorem mem_if_untagged_digests {images : List EcrImage} {du : Bool} {x : String}
    (h : x ∈ (if du && !(untaggedOf images).isEmpty then
      (untaggedOf images).map EcrImage.imageDigest else [])) :
    x ∈ (untaggedOf images).map EcrImage.imageDigest := by
  split at h
  · exact h
  · simp at h

theorem tagged_digest_not_mem_untagged {images : List EcrImage}
    (hn : (images.map EcrImage.imageDigest).Nodup) {a : EcrImage}
    (ha : a ∈ images) (haT : a.imageTag.isSome = true) :
    a.imageDigest ∉ (untaggedOf images).map EcrImage.imageDigest := by
  intro hmem
  obtain ⟨b, hb, hbd⟩ := List.mem_map.mp hmem
  obtain ⟨hbI, hbU⟩ := mem_untaggedOf.mp hb
  have hab : b = a := digest_injOn hn b hbI a ha hbd
  subst hab
  rw [hbU] at haT
  simp at haT

theorem tagged_mem_toDelete_iff {images : List EcrImage} {keep : Int} {du : Bool}
    (hn : (images.map EcrImage.imageDigest).Nodup) {a : EcrImage}
    (ha : a ∈ images) (haT : a.imageTag.isSome = true) :
    a.imageDigest ∈ (cleanupToDelete images keep du).map DeleteEntry.imageDigest ↔
      a.imageDigest ∈ (staleOf images keep).map ImageDetail.imageDigest := by
  rw [toDelete_digests_eq, List.mem_append]
  constructor
  · rintro (h | h)
    · exact absurd (mem_if_untagged_digests h)
        (tagged_digest_not_mem_untagged hn ha haT)
    · exact h
  · exact Or.inr

theorem toDelete_digests_nodup {images : List EcrImage} {keep : Int} {du : Bool}
    (hn : (images.map EcrImage.imageDigest).Nodup) :
    ((cleanupToDelete images keep du).map DeleteEntry.imageDigest).Nodup := by
  rw [toDelete_digests_eq, List.nodup_append]
  refine ⟨?_, ?_, ?_⟩
  · split
    · exact List.Nodup.sublist (untaggedOf_digests_sublist images) hn
    · exact List.nodup_nil
  · exact List.Nodup.sublist (staleOf_digests_sublist images keep)
      ((sortedDigests_perm images).nodup_iff.mpr
        (List.Nodup.sublist (taggedOf_digests_sublist images) hn))
  · intro x hx hx'
    have hxU : x ∈ (untaggedOf images).map EcrImage.imageDigest :=
      mem_if_untagged_digests hx
    have hxT : x ∈ (taggedOf images).map EcrImage.imageDigest := staleOf_digest_mem hx'
    obtain ⟨b, hb, hbd⟩ := List.mem_map.mp hxU
    obtain ⟨a, haMem, had⟩ := List.mem_map.mp hxT
    obtain ⟨hbI, hbU⟩ := mem_untaggedOf.mp hb
    obtain ⟨haI, haT⟩ := mem_taggedOf.mp haMem
    have hab : a = b := digest_injOn hn a haI b hbI (had.trans hbd.symm)
    rw [hab, hbU] at haT
    simp at haT

theorem toDelete_digests_subset {images : List EcrImage} {keep : Int} {du : Bool}
    {x : String}
    (h : x ∈ (cleanupToDelete images keep du).map DeleteEntry.imageDigest) :
    x ∈ images.map EcrImage.imageDigest := by
  rw [toDelete_digests_eq, List.mem_append] at h
  rcases h with h | h
  · exact (untaggedOf_digests_sublist images).subset (mem_if_untagged_digests h)
  · exact (taggedOf_digests_sublist images).subset (staleOf_digest_mem h)

end AwsbotCli

/-! ### Counting retained artifacts -/

namespace AwsbotCli

theorem length_filter_mem_of_nodup {α β : Type} [DecidableEq β] (f : α → β)
    (l : List α) (d : List β) (hl : (l.map f).Nodup) (hd : d.Nodup)
    (hsub : ∀ x ∈ d, x ∈ l.map f) :
    (l.filter (fun a => decide (f a ∈ d))).length = d.length := by
  have h1 : (l.filter (fun a => decide (f a ∈ d))).map f
      = (l.map f).filter (fun x => decide (x ∈ d)) :=
    map_filter_comm f (fun x => decide (x ∈ d)) l
  have h2 : List.Perm ((l.map f).filter (fun x => decide (x ∈ d))) d := by
    rw [List.perm_ext_iff_of_nodup (hl.filter _) hd]
    intro x
    simp only [List.mem_filter, decide_eq_true_eq]
    exact ⟨fun h => h.2, fun h => ⟨hsub x h, h⟩⟩
  calc (l.filter (fun a => decide (f a ∈ d))).length
      = ((l.filter (fun a => decide (f a ∈ d))).map f).length :=
        (List.length_map _ _).symm
    _ = ((l.map f).filter (fun x => decide (x ∈ d))).length := by rw [h1]
    _ = d.length := h2.length_eq

theorem retained_pred_eq (images : List EcrImage) (keep : Int) (du : Bool)
    (a : EcrImage) :
    ((cleanupToDelete images keep du).any (fun e => e.imageDigest == a.imageDigest))
      = decide (a.imageDigest ∈
          (cleanupToDelete images keep du).map DeleteEntry.imageDigest) := by
  by_cases h : a.imageDigest ∈ (cleanupToDelete images keep du).map DeleteEntry.imageDigest
  · rw [decide_eq_true h]
    rw [List.any_eq_true]
    obtain ⟨e, he, heq⟩ := List.mem_map.mp h
    exact ⟨e, he, by rw [beq_iff_eq]; exact heq⟩
  · rw [decide_eq_false h]
    rw [← Bool.not_eq_true, List.any_eq_true]
    rintro ⟨e, he, heq⟩
    exact h (List.mem_map.mpr ⟨e, he, beq_iff_eq.mp heq⟩)

theorem retainedImages_eq_filter (images : List EcrImage) (keep : Int) (du : Bool) :
    retainedImages images keep du
      = images.filter (fun a => !decide (a.imageDigest ∈
          (cleanupToDelete images keep du).map DeleteEntry.imageDigest)) := by
  unfold retainedImages
  apply List.filter_congr
  intro a _
  rw [retained_pred_eq]

end AwsbotCli

/-! ## Claim theorems -/

namespace AwsbotCli

/-- Claim C7: for every identity sequence and every positive batch size, the chunk
loop `for i in range(0, len(l), n): l[i:i+n]` yields chunks each of length at
most `n` whose concatenation is the input in its original order. -/
theorem batching_chunks {α : Type} (l : List α) (n : Nat) (hpos : 0 < n) :
    (∀ c ∈ pyBatches n l, c.length ≤ n) ∧ (pyBatches n l).flatten = l :=
  ⟨pyBatches_length_le hpos l, pyBatches_flatten l⟩

set_option maxRecDepth 8192 in
/-- Claim C7 witness: 205 identities with batch size 100 yield exactly the chunk
sizes `[100, 100, 5]`, and the theorem's conclusions hold there. -/
theorem batching_chunks_witness :
    (pyBatches 100 (List.range 205)).map List.length = [100, 100, 5] ∧
    ((∀ c ∈ pyBatches 100 (List.range 205), c.length ≤ 100) ∧
      (pyBatches 100 (List.range 205)).flatten = List.range 205) :=
  ⟨by decide, batching_chunks (List.range 205) 100 (by decide)⟩

/-- Claim C8: the decision (and the whole observable execution) is a pure function
of its inputs: two calls with identical image lists, `keep` and
`delete_untagged` produce identical results, `to_delete` ordering included. -/
theorem decide_deterministic (images₁ images₂ : List EcrImage)
    (keep₁ keep₂ : Int) (du₁ du₂ : Bool)
    (h1 : images₁ = images₂) (h2 : keep₁ = keep₂) (h3 : du₁ = du₂) :
    cleanupToDelete images₁ keep₁ du₁ = cleanupToDelete images₂ keep₂ du₂ ∧
    ∀ dr : Bool, cleanupRun images₁ keep₁ du₁ dr = cleanupRun images₂ keep₂ du₂ dr := by
  subst h1; subst h2; subst h3
  exact ⟨rfl, fun _ => rfl⟩

/-- Claim C8 witness: the determinism theorem applied at a concrete input. -/
theorem decide_deterministic_witness :
    cleanupToDelete [⟨"a", some "v1", ["v1"], 1⟩] 0 true
        = cleanupToDelete [⟨"a", some "v1", ["v1"], 1⟩] 0 true ∧
    ∀ dr : Bool,
      cleanupRun [⟨"a", some "v1", ["v1"], 1⟩] 0 true dr
        = cleanupRun [⟨"a", some "v1", ["v1"], 1⟩] 0 true dr :=
  decide_deterministic _ _ _ _ _ _ rfl rfl rfl

/-- Claim C10: under `dry_run` no `batch_delete_image` call is ever issued, and the
reported count equals the total length of the deletions a live run with the
same inputs would issue. -/
theorem dry_run_no_calls (images : List EcrImage) (keep : Int) (du : Bool) :
    (cleanupRun images keep du true).deleteCalls = [] ∧
    ∀ n, (cleanupRun images keep du true).reportedCount = some n →
      n = ((cleanupRun images keep du false).deleteCalls).flatten.length := by
  by_cases h : (cleanupToDelete images keep du).isEmpty
  · refine ⟨by simp [cleanupRun, h], fun n hn => ?_⟩
    simp [cleanupRun, h] at hn
  · refine ⟨by simp [cleanupRun, h], fun n hn => ?_⟩
    simp [cleanupRun, h] at hn
    have hcalls : (cleanupRun images keep du false).deleteCalls
        = pyBatches 100 (cleanupToDelete images keep du) := by
      simp [cleanupRun, h]
    rw [hcalls, pyBatches_flatten]
    omega

/-- Claim C10 witness: a single untagged image with `delete_untagged` set — the dry
run issues no call and reports 1, the length the live run deletes. -/
theorem dry_run_no_calls_witness :
    (cleanupRun [⟨"x", none, [], 0⟩] 10 true true).deleteCalls = [] ∧
    (1 : Nat) = ((cleanupRun [⟨"x", none, [], 0⟩] 10 true false).deleteCalls).flatten.length :=
  ⟨(dry_run_no_calls [⟨"x", none, [], 0⟩] 10 true).1,
    (dry_run_no_calls [⟨"x", none, [], 0⟩] 10 true).2 1 rfl⟩

/-- Claim C1: in-use precedence.  The in-use concept of the repository lives in the
AMI cleanup handler: an AMI whose `ImageId` is referenced by any scanned EC2
instance is never placed in the cleanup (deletion) table, whatever the
dry-run flag and environment.  (The ECR `cleanup_images` command takes no
in-use input at all, so the rule is decided by the handler.) -/
theorem handler_in_use_precedence (instances : List Ec2Instance)
    (amis : List AmiImage) (dryRun : Bool) (env : String) {ami : AmiImage}
    (_hami : ami ∈ amis) {inst : Ec2Instance} (hinst : inst ∈ instances)
    (huse : inst.imageId = ami.imageId) :
    ∀ row ∈ (handlerRun instances amis dryRun env).cleanup,
      row.amiId ≠ ami.imageId := by
  intro row hrow heq
  unfold handlerRun at hrow
  simp only [List.mem_map] at hrow
  obtain ⟨b, hb, hrowEq⟩ := hrow
  have hbe : ((amiUsers instances b.imageId).isEmpty) = true :=
    (List.mem_filter.mp hb).2
  have hrowId : row.amiId = b.imageId := by rw [← hrowEq]
  rw [hrowId] at heq
  have hmem : inst ∈ amiUsers instances b.imageId := by
    unfold amiUsers
    rw [List.mem_filter]
    exact ⟨hinst, by rw [beq_iff_eq, huse, heq]⟩
  rw [List.isEmpty_iff] at hbe
  rw [hbe] at hmem
  simp at hmem

/-- Claim C1 witness: one AMI used by one instance; the cleanup table is empty and
the precedence theorem applies at this input. -/
theorem handler_in_use_precedence_witness :
    (handlerRun [⟨"ami-1", "i-1", []⟩] [⟨"ami-1", [], "2023"⟩] true "dev").cleanup = [] ∧
    (∀ row ∈ (handlerRun [⟨"ami-1", "i-1", []⟩] [⟨"ami-1", [], "2023"⟩] true "dev").cleanup,
      row.amiId ≠ "ami-1") :=
  ⟨rfl,
    @handler_in_use_precedence [⟨"ami-1", "i-1", []⟩] [⟨"ami-1", [], "2023"⟩]
      true "dev" ⟨"ami-1", [], "2023"⟩ (by simp) ⟨"ami-1", "i-1", []⟩ (by simp) rfl⟩

/-- Claim C2 counterexample: `keep = -1` does not raise `InvalidArgument` — the
command computes a retention decision (Python's negative slice keeps all but
the oldest tagged image) and a live run issues a `batch_delete_image` call,
so a deletion is attempted. -/
theorem negative_keep_no_error_cex :
    cleanupRun
      [⟨"sha_a", some "v1", ["v1"], 1⟩, ⟨"sha_b", some "v2", ["v2"], 2⟩,
       ⟨"sha_c", some "v3", ["v3"], 3⟩] (-1) false false
      = ⟨[[⟨"sha_a", some "v1"⟩]], some 1⟩ := rfl

/-- Claim C4 counterexample: two tagged images pushed at the same instant.  The
image with the *larger* identity (`"b"`) is listed first and is retained;
the one with the smaller identity (`"a"`) is deleted — ties are broken by
input order, not by identity ascending. -/
theorem tie_break_identity_cex :
    cleanupToDelete
      [⟨"b", some "v2", ["v2"], 5⟩, ⟨"a", some "v1", ["v1"], 5⟩] 1 false
      = [⟨"a", some "v1"⟩] ∧ ("a" : String) < "b" := by
  constructor
  · rfl
  · rw [String.lt_iff_toList_lt]
    decide

end AwsbotCli

namespace AwsbotCli

theorem staleOf_pairwise (images : List EcrImage) (keep : Int) :
    (staleOf images keep).Pairwise detGE := by
  have hs := sortDetails_pairwise ((taggedOf images).map describeImage)
  unfold staleOf
  split
  · obtain ⟨m, hm⟩ := pySliceFrom_eq_drop keep
      (sortDetails ((taggedOf images).map describeImage))
    rw [hm]
    exact hs.sublist (List.drop_sublist m _)
  · exact List.Pairwise.nil

theorem staleOf_subset_sorted {images : List EcrImage} {keep : Int} :
    ∀ d ∈ staleOf images keep,
      d ∈ sortDetails ((taggedOf images).map describeImage) := by
  intro d hd
  unfold staleOf at hd
  split at hd
  · obtain ⟨m, hm⟩ := pySliceFrom_eq_drop keep
      (sortDetails ((taggedOf images).map describeImage))
    rw [hm] at hd
    exact (List.drop_sublist m _).subset hd
  · simp at hd

/-- Any detail of the sort whose digest matches an input image is the detail
of exactly that image (digests unique). -/
theorem sorted_detail_source {images : List EcrImage}
    (hn : (images.map EcrImage.imageDigest).Nodup) {d : ImageDetail}
    (hd : d ∈ sortDetails ((taggedOf images).map describeImage)) {a : EcrImage}
    (ha : a ∈ images) (had : d.imageDigest = a.imageDigest) :
    d = describeImage a := by
  have hmem : d ∈ (taggedOf images).map describeImage :=
    (sortDetails_perm ((taggedOf images).map describeImage)).subset hd
  obtain ⟨b, hb, hbd⟩ := List.mem_map.mp hmem
  have hbI : b ∈ images := (mem_taggedOf.mp hb).1
  have hdig : b.imageDigest = a.imageDigest := by
    rw [← had, ← hbd]
    rfl
  have hba : b = a := digest_injOn hn b hbI a ha hdig
  rw [← hbd, hba]

/-- Claim C2 (amended): `cleanup_images` performs no validation of `keep`.  A
negative `keep` raises nothing: the decision is still computed, and Python's
negative slice `details[keep:]` selects exactly `min(|keep|, len(tagged))`
details for deletion — the oldest ones of the newest-first sort. -/
theorem negative_keep_no_validation (images : List EcrImage) (keep : Int)
    (du : Bool) (hk : keep < 0) :
    cleanupToDelete images keep du
      = (if du && !(untaggedOf images).isEmpty then
          (untaggedOf images).map (fun i => (⟨i.imageDigest, i.imageTag⟩ : DeleteEntry))
        else [])
        ++ (staleOf images keep).map
            (fun d => (⟨d.imageDigest, some d.imageTags.headI⟩ : DeleteEntry)) ∧
    (staleOf images keep).length = min (-keep).toNat (taggedOf images).length ∧
    ∀ d ∈ staleOf images keep,
      ∀ e ∈ sortDetails ((taggedOf images).map describeImage),
        e ∉ staleOf images keep → d.imagePushedAt ≤ e.imagePushedAt := by
  have hguard : keep < ((taggedOf images).length : Int) := by
    have : (0 : Int) ≤ ((taggedOf images).length : Int) := Int.ofNat_nonneg _
    omega
  have hL : (sortDetails ((taggedOf images).map describeImage)).length
      = (taggedOf images).length := by
    rw [(sortDetails_perm _).length_eq, List.length_map]
  have hneg : ¬ (0 : Int) ≤ keep := by omega
  have hstale : staleOf images keep
      = (sortDetails ((taggedOf images).map describeImage)).drop
          ((sortDetails ((taggedOf images).map describeImage)).length
            - min (-keep).toNat (sortDetails ((taggedOf images).map describeImage)).length) := by
    unfold staleOf
    rw [if_pos hguard]
    unfold pySliceFrom
    rw [if_neg hneg]
  refine ⟨cleanupToDelete_eq images keep du, ?_, ?_⟩
  · rw [hstale, List.length_drop, hL]
    have hmin : min (-keep).toNat (taggedOf images).length ≤ (taggedOf images).length :=
      Nat.min_le_right _ _
    omega
  · intro d hd e he hne
    set S := sortDetails ((taggedOf images).map describeImage) with hS
    set m := S.length - min (-keep).toNat S.length with hm
    have hsplit : S.take m ++ S.drop m = S := List.take_append_drop m S
    have hpw : (S.take m ++ S.drop m).Pairwise detGE := by
      rw [hsplit]; exact sortDetails_pairwise _
    rw [List.pairwise_append] at hpw
    have hd' : d ∈ S.drop m := by rw [← hstale]; exact hd
    have he' : e ∈ S.take m := by
      rcases List.mem_append.mp (hsplit ▸ he) with h | h
      · exact h
      · exact absurd (by rw [hstale]; exact h) hne
    exact hpw.2.2 e he' d hd'

/-- Claim C2 amended witness: two tagged images, `keep = -1` — exactly
`min(1, 2) = 1` stale detail is selected. -/
theorem negative_keep_no_validation_witness :
    (staleOf [⟨"sha_a", some "v1", ["v1"], 1⟩, ⟨"sha_b", some "v2", ["v2"], 2⟩]
      (-1)).length = min 1 2 :=
  ((negative_keep_no_validation
      [⟨"sha_a", some "v1", ["v1"], 1⟩, ⟨"sha_b", some "v2", ["v2"], 2⟩]
      (-1) false (by decide)).2.1).trans (by rfl)

/-- Claim C4 (amended): ties in `imagePushedAt` are broken by the original input
order, not by identity: the sort is stable — for every timestamp `t` the
subsequence of details carrying `t` is exactly the input's — and it is
sorted descending (newest first). -/
theorem sort_stable_input_order (l : List ImageDetail) (t : Int) :
    (sortDetails l).filter (fun d => d.imagePushedAt == t)
        = l.filter (fun d => d.imagePushedAt == t) ∧
    (sortDetails l).Pairwise detGE :=
  ⟨sortDetails_filter_pushed l t, sortDetails_pairwise l⟩

/-- Claim C6: `to_delete` is the concatenation of the untagged deletions followed
by the stale-tagged deletions, the stale part drawn from the newest-first
sort and itself in descending (newest-first) order. -/
theorem to_delete_concat_order (images : List EcrImage) (keep : Int) (du : Bool) :
    ∃ stale : List ImageDetail,
      stale.Pairwise detGE ∧
      (∀ d ∈ stale, d ∈ sortDetails ((taggedOf images).map describeImage)) ∧
      cleanupToDelete images keep du
        = (if du && !(untaggedOf images).isEmpty then
            (untaggedOf images).map (fun i => (⟨i.imageDigest, i.imageTag⟩ : DeleteEntry))
          else [])
          ++ stale.map (fun d => (⟨d.imageDigest, some d.imageTags.headI⟩ : DeleteEntry)) :=
  ⟨staleOf images keep, staleOf_pairwise images keep, staleOf_subset_sorted,
    cleanupToDelete_eq images keep du⟩

end AwsbotCli

namespace AwsbotCli

theorem nodup_digest_filter_le_one {l : List DeleteEntry}
    (h : (l.map DeleteEntry.imageDigest).Nodup) (x : String) :
    (l.filter (fun e => e.imageDigest == x)).length ≤ 1 := by
  induction l with
  | nil => simp
  | cons e es ih =>
    rw [List.map_cons, List.nodup_cons] at h
    obtain ⟨he, hes⟩ := h
    rw [List.filter_cons]
    by_cases hx : (e.imageDigest == x) = true
    · rw [if_pos hx]
      have hnil : es.filter (fun e' => e'.imageDigest == x) = [] := by
        rw [List.filter_eq_nil_iff]
        intro e' he' hpe'
        apply he
        rw [beq_iff_eq] at hx hpe'
        exact List.mem_map.mpr ⟨e', he', by rw [hpe', ← hx]⟩
      rw [hnil]
      simp
    · rw [if_neg hx]
      exact ih hes

theorem mem_if_untagged_entries {images : List EcrImage} {du : Bool}
    {e : DeleteEntry}
    (h : e ∈ (if du && !(untaggedOf images).isEmpty then
      (untaggedOf images).map (fun i => (⟨i.imageDigest, i.imageTag⟩ : DeleteEntry))
    else [])) :
    ∃ b ∈ untaggedOf images, e = ⟨b.imageDigest, b.imageTag⟩ := by
  split at h
  · obtain ⟨b, hb, hbe⟩ := List.mem_map.mp h
    exact ⟨b, hb, hbe.symm⟩
  · simp at h

/-- Claim C9: a stale tagged image contributes at most one deletion entry, and any
entry carrying its digest names exactly the first element of the image's
`imageTags` list — an image with several tags yields a single entry naming
only one of them. -/
theorem stale_entry_first_tag (images : List EcrImage) (keep : Int) (du : Bool)
    (hn : (images.map EcrImage.imageDigest).Nodup) {a : EcrImage}
    (ha : a ∈ images) (haT : a.imageTag.isSome = true) :
    ((cleanupToDelete images keep du).filter
        (fun e => e.imageDigest == a.imageDigest)).length ≤ 1 ∧
    ∀ e ∈ cleanupToDelete images keep du, e.imageDigest = a.imageDigest →
      e.imageTag = some a.imageTags.headI := by
  refine ⟨nodup_digest_filter_le_one (toDelete_digests_nodup hn) _, ?_⟩
  intro e he hed
  rw [cleanupToDelete_eq] at he
  rcases List.mem_append.mp he with h | h
  · obtain ⟨b, hb, hbe⟩ := mem_if_untagged_entries h
    obtain ⟨hbI, hbU⟩ := mem_untaggedOf.mp hb
    have : b.imageDigest = a.imageDigest := by rw [← hed, hbe]
    have hba : b = a := digest_injOn hn b hbI a ha this
    rw [hba] at hbU
    rw [hbU] at haT
    simp at haT
  · obtain ⟨d, hd, hde⟩ := List.mem_map.mp h
    have hds : d ∈ sortDetails ((taggedOf images).map describeImage) :=
      staleOf_subset_sorted d hd
    have hdd : d.imageDigest = a.imageDigest := by
      rw [← hed, ← hde]
    have hda : d = describeImage a := sorted_detail_source hn hds ha hdd
    rw [← hde, hda]
    rfl

/-- Claim C9 witness: an image carrying tags `["v1", "v2"]` that falls out of the
keep window yields the single entry `{digest, "v1"}`. -/
theorem stale_entry_first_tag_witness :
    cleanupToDelete
      [⟨"d1", some "v1", ["v1", "v2"], 1⟩, ⟨"d2", some "v3", ["v3"], 2⟩] 1 false
      = [⟨"d1", some "v1"⟩] ∧
    (((cleanupToDelete
        [⟨"d1", some "v1", ["v1", "v2"], 1⟩, ⟨"d2", some "v3", ["v3"], 2⟩] 1 false).filter
          (fun e => e.imageDigest == "d1")).length ≤ 1 ∧
      ∀ e ∈ cleanupToDelete
          [⟨"d1", some "v1", ["v1", "v2"], 1⟩, ⟨"d2", some "v3", ["v3"], 2⟩] 1 false,
        e.imageDigest = "d1" → e.imageTag = some "v1") :=
  ⟨rfl,
    @stale_entry_first_tag
      [⟨"d1", some "v1", ["v1", "v2"], 1⟩, ⟨"d2", some "v3", ["v3"], 2⟩] 1 false
      (by decide) ⟨"d1", some "v1", ["v1", "v2"], 1⟩ (by simp) (by decide)⟩

end AwsbotCli

namespace AwsbotCli

theorem length_filter_split {α : Type} (l : List α) (p : α → Bool) :
    (l.filter p).length + (l.filter (fun a => !p a)).length = l.length := by
  induction l with
  | nil => rfl
  | cons x xs ih =>
    rw [List.filter_cons, List.filter_cons]
    by_cases h : p x = true
    · rw [if_pos h, if_neg (by simp [h])]
      simp only [List.length_cons]
      omega
    · rw [if_neg h, if_pos (by simp [Bool.not_eq_true] at h; simp [h])]
      simp only [List.length_cons]
      omega

/-- Claim C5: the decision is a partition of the input: deleted plus retained
counts sum to the input count, no digest occurs twice in `to_delete`, and
each input artifact is deleted exactly when it is not retained. -/
theorem decision_partitions_input (images : List EcrImage) (keep : Int)
    (du : Bool) (hn : (images.map EcrImage.imageDigest).Nodup)
    (_hk : 0 ≤ keep) :
    (cleanupToDelete images keep du).length
        + (retainedImages images keep du).length = images.length ∧
    ((cleanupToDelete images keep du).map DeleteEntry.imageDigest).Nodup ∧
    ∀ a ∈ images,
      (a.imageDigest ∈ (cleanupToDelete images keep du).map DeleteEntry.imageDigest)
        ↔ a ∉ retainedImages images keep du := by
  refine ⟨?_, toDelete_digests_nodup hn, ?_⟩
  · rw [retainedImages_eq_filter]
    have hsplit := length_filter_split images
      (fun a => decide (a.imageDigest ∈
        (cleanupToDelete images keep du).map DeleteEntry.imageDigest))
    have hc : (images.filter (fun a => decide (a.imageDigest ∈
        (cleanupToDelete images keep du).map DeleteEntry.imageDigest))).length
        = ((cleanupToDelete images keep du).map DeleteEntry.imageDigest).length :=
      length_filter_mem_of_nodup EcrImage.imageDigest images _ hn
        (toDelete_digests_nodup hn) (fun x hx => toDelete_digests_subset hx)
    rw [List.length_map] at hc
    omega
  · intro a ha
    have hr : a ∈ retainedImages images keep du ↔
        a.imageDigest ∉ (cleanupToDelete images keep du).map DeleteEntry.imageDigest := by
      rw [retainedImages_eq_filter, List.mem_filter]
      simp [ha]
    rw [hr]
    exact not_not.symm

/-- Claim C5 witness: one tagged and one untagged image, `keep = 0`,
`delete_untagged` set — both deleted, none retained, counts conserved. -/
theorem decision_partitions_input_witness :
    cleanupToDelete [⟨"a", some "v1", ["v1"], 1⟩, ⟨"x", none, [], 2⟩] 0 true
      = [⟨"x", none⟩, ⟨"a", some "v1"⟩] ∧
    ((cleanupToDelete [⟨"a", some "v1", ["v1"], 1⟩, ⟨"x", none, [], 2⟩] 0 true).length
        + (retainedImages [⟨"a", some "v1", ["v1"], 1⟩, ⟨"x", none, [], 2⟩] 0 true).length
      = 2 ∧
      ((cleanupToDelete [⟨"a", some "v1", ["v1"], 1⟩, ⟨"x", none, [], 2⟩] 0 true).map
          DeleteEntry.imageDigest).Nodup ∧
      ∀ a ∈ [(⟨"a", some "v1", ["v1"], 1⟩ : EcrImage), ⟨"x", none, [], 2⟩],
        (a.imageDigest ∈ (cleanupToDelete [⟨"a", some "v1", ["v1"], 1⟩,
            ⟨"x", none, [], 2⟩] 0 true).map DeleteEntry.imageDigest)
          ↔ a ∉ retainedImages [⟨"a", some "v1", ["v1"], 1⟩, ⟨"x", none, [], 2⟩] 0 true) :=
  ⟨rfl,
    decision_partitions_input [⟨"a", some "v1", ["v1"], 1⟩, ⟨"x", none, [], 2⟩] 0 true
      (by decide) (by decide)⟩

end AwsbotCli

namespace AwsbotCli

theorem tagged_not_deleted_of_big_keep {images : List EcrImage} {keep : Int}
    (du : Bool) (hn : (images.map EcrImage.imageDigest).Nodup)
    (hlen : ¬ keep < ((taggedOf images).length : Int)) {a : EcrImage}
    (ha : a ∈ taggedOf images) :
    a.imageDigest ∉ (cleanupToDelete images keep du).map DeleteEntry.imageDigest := by
  intro h
  obtain ⟨haI, haT⟩ := mem_taggedOf.mp ha
  have h2 := (tagged_mem_toDelete_iff hn haI haT).mp h
  unfold staleOf at h2
  rw [if_neg hlen] at h2
  simp at h2

theorem tagged_deleted_iff_drop {images : List EcrImage} {keep : Int} (du : Bool)
    (hn : (images.map EcrImage.imageDigest).Nodup) (hk : 0 ≤ keep)
    (hlen : keep < ((taggedOf images).length : Int)) {a : EcrImage}
    (ha : a ∈ taggedOf images) :
    (a.imageDigest ∈ (cleanupToDelete images keep du).map DeleteEntry.imageDigest) ↔
      a.imageDigest ∈
        (((sortDetails ((taggedOf images).map describeImage)).map
          ImageDetail.imageDigest).drop keep.toNat) := by
  obtain ⟨haI, haT⟩ := mem_taggedOf.mp ha
  rw [tagged_mem_toDelete_iff hn haI haT]
  unfold staleOf
  rw [if_pos hlen, pySliceFrom_of_nonneg hk, List.map_drop]

theorem mem_take_iff_not_mem_drop {β : Type} {l : List β} (hnd : l.Nodup)
    (m : Nat) {x : β} (hx : x ∈ l) :
    x ∈ l.take m ↔ x ∉ l.drop m := by
  have hsplit : l.take m ++ l.drop m = l := List.take_append_drop m l
  have hnd2 : (l.take m ++ l.drop m).Nodup := by rw [hsplit]; exact hnd
  constructor
  · intro ht hd
    exact (List.disjoint_of_nodup_append hnd2) ht hd
  · intro hd
    rcases List.mem_append.mp (by rw [hsplit]; exact hx) with h | h
    · exact h
    · exact absurd h hd

end AwsbotCli

namespace AwsbotCli

/-- Claim C3: keep-window correctness.  Among the tagged artifacts, exactly
`min(keep, count)` are retained by the decision, and every retained tagged
artifact is at least as recent as every deleted tagged artifact. -/
theorem keep_window_correct (images : List EcrImage) (keep : Int) (du : Bool)
    (hn : (images.map EcrImage.imageDigest).Nodup) (hk : 0 ≤ keep) :
    ((taggedOf images).filter (fun a => !decide (a.imageDigest ∈
        (cleanupToDelete images keep du).map DeleteEntry.imageDigest))).length
      = min keep.toNat (taggedOf images).length ∧
    ∀ r ∈ (taggedOf images).filter (fun a => !decide (a.imageDigest ∈
        (cleanupToDelete images keep du).map DeleteEntry.imageDigest)),
      ∀ a ∈ taggedOf images,
        a.imageDigest ∈ (cleanupToDelete images keep du).map DeleteEntry.imageDigest →
          a.imagePushedAt ≤ r.imagePushedAt := by
  by_cases hlen : keep < ((taggedOf images).length : Int)
  · -- the keep window is smaller than the tagged population
    have hTD_nodup : ((taggedOf images).map EcrImage.imageDigest).Nodup :=
      List.Nodup.sublist (taggedOf_digests_sublist images) hn
    have hSD_perm := sortedDigests_perm images
    have hSD_nodup :
        ((sortDetails ((taggedOf images).map describeImage)).map
          ImageDetail.imageDigest).Nodup :=
      hSD_perm.nodup_iff.mpr hTD_nodup
    have hfc : (taggedOf images).filter (fun a => !decide (a.imageDigest ∈
          (cleanupToDelete images keep du).map DeleteEntry.imageDigest))
        = (taggedOf images).filter (fun a => decide (a.imageDigest ∈
            ((sortDetails ((taggedOf images).map describeImage)).map
              ImageDetail.imageDigest).take keep.toNat)) := by
      apply List.filter_congr
      intro a ha
      have hmemSD : a.imageDigest ∈
          (sortDetails ((taggedOf images).map describeImage)).map
            ImageDetail.imageDigest :=
        hSD_perm.mem_iff.mpr (List.mem_map.mpr ⟨a, ha, rfl⟩)
      have hiff := tagged_deleted_iff_drop du hn hk hlen ha
      have hdi := mem_take_iff_not_mem_drop hSD_nodup keep.toNat hmemSD
      by_cases hP : a.imageDigest ∈
          (cleanupToDelete images keep du).map DeleteEntry.imageDigest
      · have hdrop := hiff.mp hP
        have hnt : a.imageDigest ∉
            ((sortDetails ((taggedOf images).map describeImage)).map
              ImageDetail.imageDigest).take keep.toNat :=
          fun ht => (hdi.mp ht) hdrop
        simp [hP, hnt]
      · have hnd' : a.imageDigest ∉
            ((sortDetails ((taggedOf images).map describeImage)).map
              ImageDetail.imageDigest).drop keep.toNat :=
          fun hd => hP (hiff.mpr hd)
        have hht := hdi.mpr hnd'
        simp [hP, hht]
    constructor
    · rw [hfc,
        length_filter_mem_of_nodup EcrImage.imageDigest (taggedOf images) _ hTD_nodup
          (List.Nodup.sublist (List.take_sublist _ _) hSD_nodup)
          (fun x hx => hSD_perm.mem_iff.mp ((List.take_sublist _ _).subset hx)),
        List.length_take, List.length_map, (sortDetails_perm _).length_eq,
        List.length_map]
    · intro r hr a ha hdel
      obtain ⟨hrT, hrP⟩ := List.mem_filter.mp hr
      obtain ⟨hrI, hrTag⟩ := mem_taggedOf.mp hrT
      obtain ⟨haI, haTag⟩ := mem_taggedOf.mp ha
      have hrNot : r.imageDigest ∉
          (cleanupToDelete images keep du).map DeleteEntry.imageDigest := by
        simpa using hrP
      have hrSD : r.imageDigest ∈
          (sortDetails ((taggedOf images).map describeImage)).map
            ImageDetail.imageDigest :=
        hSD_perm.mem_iff.mpr (List.mem_map.mpr ⟨r, hrT, rfl⟩)
      have hrTake : r.imageDigest ∈
          ((sortDetails ((taggedOf images).map describeImage)).map
            ImageDetail.imageDigest).take keep.toNat :=
        (mem_take_iff_not_mem_drop hSD_nodup keep.toNat hrSD).mpr
          (fun hd => hrNot ((tagged_deleted_iff_drop du hn hk hlen hrT).mpr hd))
      have haDrop : a.imageDigest ∈
          ((sortDetails ((taggedOf images).map describeImage)).map
            ImageDetail.imageDigest).drop keep.toNat :=
        (tagged_deleted_iff_drop du hn hk hlen ha).mp hdel
      rw [← List.map_take] at hrTake
      rw [← List.map_drop] at haDrop
      obtain ⟨dr, hdr, hdrd⟩ := List.mem_map.mp hrTake
      obtain ⟨da, hda, hdad⟩ := List.mem_map.mp haDrop
      have hdrS : dr ∈ sortDetails ((taggedOf images).map describeImage) :=
        (List.take_sublist _ _).subset hdr
      have hdaS : da ∈ sortDetails ((taggedOf images).map describeImage) :=
        (List.drop_sublist _ _).subset hda
      have hdrEq : dr = describeImage r := sorted_detail_source hn hdrS hrI hdrd
      have hdaEq : da = describeImage a := sorted_detail_source hn hdaS haI hdad
      have hpw : ((sortDetails ((taggedOf images).map describeImage)).take keep.toNat
          ++ (sortDetails ((taggedOf images).map describeImage)).drop keep.toNat).Pairwise
            detGE := by
        rw [List.take_append_drop]
        exact sortDetails_pairwise _
      have hge := (List.pairwise_append.mp hpw).2.2 dr hdr da hda
      rw [hdrEq, hdaEq] at hge
      exact hge
  · -- every tagged artifact fits in the keep window
    have hall : ∀ a ∈ taggedOf images,
        (!decide (a.imageDigest ∈
          (cleanupToDelete images keep du).map DeleteEntry.imageDigest)) = true := by
      intro a ha
      simp [tagged_not_deleted_of_big_keep du hn hlen ha]
    constructor
    · rw [List.filter_eq_self.mpr hall]
      have h1 : (taggedOf images).length ≤ keep.toNat := by omega
      rw [Nat.min_eq_right h1]
    · intro r hr a ha hdel
      exact absurd hdel (tagged_not_deleted_of_big_keep du hn hlen ha)

end AwsbotCli

namespace AwsbotCli

/-- Claim C3 witness: three tagged images, `keep = 2` — the two newest are
retained (`min 2 3 = 2`) and only the oldest is deleted. -/
theorem keep_window_correct_witness :
    cleanupToDelete [⟨"a", some "v1", ["v1"], 1⟩, ⟨"b", some "v2", ["v2"], 2⟩,
        ⟨"c", some "v3", ["v3"], 3⟩] 2 false = [⟨"a", some "v1"⟩] ∧
    (((taggedOf [⟨"a", some "v1", ["v1"], 1⟩, ⟨"b", some "v2", ["v2"], 2⟩,
          ⟨"c", some "v3", ["v3"], 3⟩]).filter (fun a => !decide (a.imageDigest ∈
        (cleanupToDelete [⟨"a", some "v1", ["v1"], 1⟩, ⟨"b", some "v2", ["v2"], 2⟩,
          ⟨"c", some "v3", ["v3"], 3⟩] 2 false).map DeleteEntry.imageDigest))).length
      = min (2 : Int).toNat (taggedOf [⟨"a", some "v1", ["v1"], 1⟩,
          ⟨"b", some "v2", ["v2"], 2⟩, ⟨"c", some "v3", ["v3"], 3⟩]).length ∧
    ∀ r ∈ (taggedOf [⟨"a", some "v1", ["v1"], 1⟩, ⟨"b", some "v2", ["v2"], 2⟩,
          ⟨"c", some "v3", ["v3"], 3⟩]).filter (fun a => !decide (a.imageDigest ∈
        (cleanupToDelete [⟨"a", some "v1", ["v1"], 1⟩, ⟨"b", some "v2", ["v2"], 2⟩,
          ⟨"c", some "v3", ["v3"], 3⟩] 2 false).map DeleteEntry.imageDigest)),
      ∀ a ∈ taggedOf [⟨"a", some "v1", ["v1"], 1⟩, ⟨"b", some "v2", ["v2"], 2⟩,
          ⟨"c", some "v3", ["v3"], 3⟩],
        a.imageDigest ∈ (cleanupToDelete [⟨"a", some "v1", ["v1"], 1⟩,
            ⟨"b", some "v2", ["v2"], 2⟩, ⟨"c", some "v3", ["v3"], 3⟩] 2 false).map
          DeleteEntry.imageDigest →
          a.imagePushedAt ≤ r.imagePushedAt) :=
  ⟨rfl,
    keep_window_correct [⟨"a", some "v1", ["v1"], 1⟩, ⟨"b", some "v2", ["v2"], 2⟩,
      ⟨"c", some "v3", ["v3"], 3⟩] 2 false (by decide) (by decide)⟩

end AwsbotCli
